import Mathlib

/-!
Verification of the Set-NMS suppression kernel from
`mmdet_furniture/mmdet/core/post_processing/bbox_setnms.py`.

The kernel `set_nms_wrapper(dets, iou_thr)` receives an `(n, 6)` array whose
columns are `x1, y1, x2, y2, score, set_index`, and returns the list of row
indices surviving greedy set-aware non-maximum suppression.

We embed a row of `dets` as a record `Det` over exact rationals.  The numpy
`order` array (indices sorted by descending score) is embedded as a list of
`(original index, row)` pairs, so that each pool element carries the row data
the source reads via `x1[order[1:]]` etc.  numpy's `argsort` tie-break among
equal scores is unspecified; following the specification we fix a
deterministic tie-break (stable sort, ties kept in original index order).
The `while order.size > 0` loop is embedded with an explicit fuel argument
initialised to the pool length, which the loop never exhausts because each
round strictly shrinks the pool.
-/

/-- One row of the `dets` array: columns `x1, y1, x2, y2, score, set_index`
(`dets[:, 0] .. dets[:, 5]` in `set_nms_wrapper`). -/
structure Det where
  x1 : ℚ
  y1 : ℚ
  x2 : ℚ
  y2 : ℚ
  score : ℚ
  set_index : ℚ
deriving DecidableEq, Repr, Inhabited

/-- `areas = (x2 - x1 + 1) * (y2 - y1 + 1)` (line 99): pixel-inclusive area. -/
def area (d : Det) : ℚ :=
  (d.x2 - d.x1 + 1) * (d.y2 - d.y1 + 1)

/-- Lines 107-115: the overlap ratio `ovr` computed between the current top
box `di` and another pool box `dj`:
`xx1 = max(x1[i], x1[j])`, `yy1 = max(y1[i], y1[j])`,
`xx2 = min(x2[i], x2[j])`, `yy2 = min(y2[i], y2[j])`,
`w = max(0, xx2 - xx1 + 1)`, `h = max(0, yy2 - yy1 + 1)`,
`inter = w * h`, `ovr = inter / (areas[i] + areas[j] - inter)`. -/
def iou (di dj : Det) : ℚ :=
  let xx1 := max di.x1 dj.x1
  let yy1 := max di.y1 dj.y1
  let xx2 := min di.x2 dj.x2
  let yy2 := min di.y2 dj.y2
  let w := max 0 (xx2 - xx1 + 1)
  let h := max 0 (yy2 - yy1 + 1)
  let inter := w * h
  inter / (area di + area dj - inter)

/-- Lines 117-118: one suppression round.  With current top candidate `i`,
the surviving pool is the sublist of the remaining candidates `rest`
(`order[1:]`) selected by
`(ovr <= iou_thr) | ((ovr > iou_thr) & (set_index[order[1:]] == set_i))`. -/
def set_suppress_round (iou_thr : ℚ) (i : Nat × Det) (rest : List (Nat × Det)) :
    List (Nat × Det) :=
  rest.filter fun j =>
    decide (iou i.2 j.2 ≤ iou_thr) ||
      (decide (iou_thr < iou i.2 j.2) && decide (j.2.set_index = i.2.set_index))

/-- Fueled embedding of the `while order.size > 0` loop (lines 103-118): the
head of the pool (`i = order[0]`) is appended to the keep list and the pool
is replaced by the survivors of `set_suppress_round`. -/
def set_nms_go (iou_thr : ℚ) : Nat → List (Nat × Det) → List (Nat × Det)
  | _, [] => []
  | 0, _ :: _ => []
  | fuel + 1, i :: rest =>
      i :: set_nms_go iou_thr fuel (set_suppress_round iou_thr i rest)

/-- The greedy loop, run with enough fuel to never exhaust it. -/
def set_nms_loop (iou_thr : ℚ) (pool : List (Nat × Det)) : List (Nat × Det) :=
  set_nms_go iou_thr pool.length pool

/-- Descending-score order on pool entries, used to embed
`order = scores.argsort()[::-1]` (line 100): `a` ranks no lower than `b`. -/
def score_order (a b : Nat × Det) : Prop :=
  b.2.score ≤ a.2.score

instance : DecidableRel score_order := fun a b =>
  inferInstanceAs (Decidable (b.2.score ≤ a.2.score))

instance : IsTotal (Nat × Det) score_order :=
  ⟨fun a b => (le_total a.2.score b.2.score).symm⟩

instance : IsTrans (Nat × Det) score_order :=
  ⟨fun _ _ _ hab hbc => le_trans hbc hab⟩

/-- Line 100: the initial pool, all rows paired with their original index and
sorted by descending score (stable, ties kept in original index order). -/
def sorted_order (dets : List Det) : List (Nat × Det) :=
  List.insertionSort score_order dets.enum

/-- Lines 91-119: `set_nms_wrapper(dets, iou_thr)`, returning the `keep` list
of original row indices in selection order. -/
def set_nms_wrapper (dets : List Det) (iou_thr : ℚ) : List Nat :=
  (set_nms_loop iou_thr (sorted_order dets)).map Prod.fst

theorem set_suppress_round_length_le (iou_thr : ℚ) (i : Nat × Det)
    (rest : List (Nat × Det)) :
    (set_suppress_round iou_thr i rest).length ≤ rest.length :=
  List.length_filter_le _ _

theorem set_nms_go_eq_of_le (iou_thr : ℚ) :
    ∀ (f₁ f₂ : Nat) (pool : List (Nat × Det)), pool.length ≤ f₁ →
      pool.length ≤ f₂ → set_nms_go iou_thr f₁ pool = set_nms_go iou_thr f₂ pool := by
  intro f₁
  induction f₁ with
  | zero =>
    intro f₂ pool h1 _
    match pool, h1 with
    | [], _ => cases f₂ <;> rfl
  | succ n ih =>
    intro f₂ pool h1 h2
    match pool with
    | [] => cases f₂ <;> rfl
    | i :: rest =>
      match f₂, h2 with
      | f₂ + 1, h2 =>
        simp only [set_nms_go]
        have hr := set_suppress_round_length_le iou_thr i rest
        have h1' : rest.length ≤ n := by simp only [List.length_cons] at h1; omega
        have h2' : rest.length ≤ f₂ := by simp only [List.length_cons] at h2; omega
        rw [ih f₂ _ (le_trans hr h1') (le_trans hr h2')]

theorem set_nms_loop_nil (iou_thr : ℚ) : set_nms_loop iou_thr [] = [] := rfl

theorem set_nms_loop_cons (iou_thr : ℚ) (i : Nat × Det) (rest : List (Nat × Det)) :
    set_nms_loop iou_thr (i :: rest) =
      i :: set_nms_loop iou_thr (set_suppress_round iou_thr i rest) := by
  unfold set_nms_loop
  simp only [List.length_cons, set_nms_go]
  exact congrArg _ (set_nms_go_eq_of_le _ _ _ _
    (set_suppress_round_length_le _ _ _) le_rfl)

/-- Candidate A of the concrete scenario: box (0,0,10,10), score 0.9, set 1. -/
def detA : Det := ⟨0, 0, 10, 10, 9/10, 1⟩

/-- Candidate B of the concrete scenario: box (1,1,11,11), score 0.8, set 1. -/
def detB : Det := ⟨1, 1, 11, 11, 8/10, 1⟩

/-- Candidate C of the concrete scenario: box (0,0,10,10), score 0.7, set 2. -/
def detC : Det := ⟨0, 0, 10, 10, 7/10, 2⟩

/-- The survival condition of line 117, as a proposition on rows: `j` stays in
the pool for a later round iff its overlap with the current top `i` is at most
the threshold or it shares `i`'s set index. -/
def survives (iou_thr : ℚ) (i j : Det) : Prop :=
  iou i j ≤ iou_thr ∨ j.set_index = i.set_index

instance (iou_thr : ℚ) (i j : Det) : Decidable (survives iou_thr i j) :=
  inferInstanceAs (Decidable (_ ∨ _))

theorem set_suppress_round_bool_iff (iou_thr : ℚ) (i j : Nat × Det) :
    ((decide (iou i.2 j.2 ≤ iou_thr) ||
      (decide (iou_thr < iou i.2 j.2) && decide (j.2.set_index = i.2.set_index))) = true)
      ↔ survives iou_thr i.2 j.2 := by
  simp only [Bool.or_eq_true, Bool.and_eq_true, decide_eq_true_eq, survives]
  constructor
  · rintro (h | ⟨-, h⟩)
    · exact Or.inl h
    · exact Or.inr h
  · rintro (h | h)
    · exact Or.inl h
    · rcases le_or_lt (iou i.2 j.2) iou_thr with hle | hlt
      · exact Or.inl hle
      · exact Or.inr ⟨hlt, h⟩

theorem mem_set_suppress_round {iou_thr : ℚ} {i j : Nat × Det}
    {rest : List (Nat × Det)} :
    j ∈ set_suppress_round iou_thr i rest ↔ j ∈ rest ∧ survives iou_thr i.2 j.2 := by
  simp only [set_suppress_round, List.mem_filter, set_suppress_round_bool_iff]

theorem set_suppress_round_eq_self {iou_thr : ℚ} {i : Nat × Det}
    {rest : List (Nat × Det)} (h : ∀ j ∈ rest, survives iou_thr i.2 j.2) :
    set_suppress_round iou_thr i rest = rest :=
  List.filter_eq_self.mpr fun j hj => (set_suppress_round_bool_iff iou_thr i j).mpr (h j hj)

theorem set_nms_loop_sublist (iou_thr : ℚ) :
    ∀ (n : Nat) (pool : List (Nat × Det)), pool.length ≤ n →
      List.Sublist (set_nms_loop iou_thr pool) pool := by
  intro n
  induction n with
  | zero =>
    intro pool h
    match pool, h with
    | [], _ => exact List.Sublist.refl _
  | succ n ih =>
    intro pool h
    match pool with
    | [] => exact List.Sublist.refl _
    | i :: rest =>
      rw [set_nms_loop_cons]
      refine List.Sublist.cons₂ i ?_
      have h1 : (set_suppress_round iou_thr i rest).length ≤ n := by
        have := set_suppress_round_length_le iou_thr i rest
        simp only [List.length_cons] at h
        omega
      exact (ih _ h1).trans (List.filter_sublist rest)

theorem set_nms_loop_sublist' (iou_thr : ℚ) (pool : List (Nat × Det)) :
    List.Sublist (set_nms_loop iou_thr pool) pool :=
  set_nms_loop_sublist iou_thr pool.length pool le_rfl

/-- Every candidate kept in a later round survived the filter of every earlier
round: the keep list is pairwise related by `survives`. -/
theorem set_nms_loop_pairwise (iou_thr : ℚ) :
    ∀ (n : Nat) (pool : List (Nat × Det)), pool.length ≤ n →
      (set_nms_loop iou_thr pool).Pairwise fun a b => survives iou_thr a.2 b.2 := by
  intro n
  induction n with
  | zero =>
    intro pool h
    match pool, h with
    | [], _ => exact List.Pairwise.nil
  | succ n ih =>
    intro pool h
    match pool with
    | [] => exact List.Pairwise.nil
    | i :: rest =>
      rw [set_nms_loop_cons]
      have h1 : (set_suppress_round iou_thr i rest).length ≤ n := by
        have := set_suppress_round_length_le iou_thr i rest
        simp only [List.length_cons] at h
        omega
      refine List.Pairwise.cons (fun b hb => ?_) (ih _ h1)
      have hb' : b ∈ set_suppress_round iou_thr i rest :=
        (set_nms_loop_sublist' iou_thr _).subset hb
      exact (mem_set_suppress_round.mp hb').2

/-- If no pool element can suppress a later one, the loop keeps the whole
pool unchanged. -/
theorem set_nms_loop_eq_self (iou_thr : ℚ) :
    ∀ (n : Nat) (pool : List (Nat × Det)), pool.length ≤ n →
      (pool.Pairwise fun a b => survives iou_thr a.2 b.2) →
      set_nms_loop iou_thr pool = pool := by
  intro n
  induction n with
  | zero =>
    intro pool h _
    match pool, h with
    | [], _ => rfl
  | succ n ih =>
    intro pool h hp
    match pool with
    | [] => rfl
    | i :: rest =>
      rw [set_nms_loop_cons]
      rcases List.pairwise_cons.mp hp with ⟨hhead, htail⟩
      rw [set_suppress_round_eq_self hhead]
      have h1 : rest.length ≤ n := by
        simp only [List.length_cons] at h
        omega
      rw [ih rest h1 htail]

theorem set_nms_wrapper_length_le (dets : List Det) (iou_thr : ℚ) :
    (set_nms_wrapper dets iou_thr).length ≤ dets.length := by
  unfold set_nms_wrapper
  rw [List.length_map]
  calc (set_nms_loop iou_thr (sorted_order dets)).length
      ≤ (sorted_order dets).length := (set_nms_loop_sublist' _ _).length_le
    _ = dets.length := by
        unfold sorted_order
        rw [List.length_insertionSort, List.enum_length]

/-- Elements of `sorted_order dets` are exactly the index-row pairs of
`dets.enum`. -/
theorem mem_sorted_order {dets : List Det} {p : Nat × Det} :
    p ∈ sorted_order dets ↔ p ∈ dets.enum := by
  unfold sorted_order
  exact List.mem_insertionSort score_order

theorem sorted_order_getD {dets : List Det} {p : Nat × Det}
    (hp : p ∈ sorted_order dets) : dets.getD p.1 default = p.2 := by
  have := List.mem_enum_iff_getElem?.mp (mem_sorted_order.mp hp)
  rw [List.getD_eq_getElem?_getD, this, Option.getD_some]

theorem sorted_order_map_fst_perm (dets : List Det) :
    ((sorted_order dets).map Prod.fst).Perm (List.range dets.length) := by
  have h := (List.perm_insertionSort score_order dets.enum).map Prod.fst
  rwa [List.enum_map_fst] at h

/-- C1: in every round of the greedy suppression loop with current top
candidate `i`, a remaining candidate `j` stays in the pool iff
`iou(i,j) ≤ iou_thr` or `j` shares `i`'s set id, is removed iff
`iou(i,j) > iou_thr` and the set ids differ, and `i` itself is appended to
the keep list and removed from the pool before the next round. -/
theorem round_removal_characterisation (iou_thr : ℚ) (i : Nat × Det)
    (rest : List (Nat × Det)) (j : Nat × Det) (hj : j ∈ rest) :
    (j ∈ set_suppress_round iou_thr i rest ↔
      iou i.2 j.2 ≤ iou_thr ∨ j.2.set_index = i.2.set_index) ∧
    (j ∉ set_suppress_round iou_thr i rest ↔
      iou_thr < iou i.2 j.2 ∧ j.2.set_index ≠ i.2.set_index) ∧
    set_nms_loop iou_thr (i :: rest) =
      i :: set_nms_loop iou_thr (set_suppress_round iou_thr i rest) ∧
    (i ∉ rest → i ∉ set_suppress_round iou_thr i rest) := by
  refine ⟨?_, ?_, set_nms_loop_cons _ _ _, ?_⟩
  · rw [mem_set_suppress_round]
    simp only [hj, true_and]
    exact Iff.rfl
  · rw [mem_set_suppress_round]
    simp only [hj, true_and]
    unfold survives
    constructor
    · intro h
      rw [not_or, not_le] at h
      exact ⟨h.1, h.2⟩
    · rintro ⟨hlt, hne⟩ (hle | heq)
      · exact absurd hle (not_le.mpr hlt)
      · exact hne heq
  · intro hi hmem
    exact hi (mem_set_suppress_round.mp hmem).1

/-- Witness for `round_removal_characterisation`: top candidate A against a
pool containing only C, at threshold 1/2. -/
theorem round_removal_characterisation_witness :
    ((2, detC) ∈ set_suppress_round (1/2) (0, detA) [(2, detC)] ↔
      iou detA detC ≤ 1/2 ∨ detC.set_index = detA.set_index) ∧
    ((2, detC) ∉ set_suppress_round (1/2) (0, detA) [(2, detC)] ↔
      1/2 < iou detA detC ∧ detC.set_index ≠ detA.set_index) ∧
    set_nms_loop (1/2) ((0, detA) :: [(2, detC)]) =
      (0, detA) :: set_nms_loop (1/2) (set_suppress_round (1/2) (0, detA) [(2, detC)]) ∧
    ((0, detA) ∉ [(2, detC)] → (0, detA) ∉ set_suppress_round (1/2) (0, detA) [(2, detC)]) :=
  round_removal_characterisation (1/2) (0, detA) [(2, detC)] (2, detC)
    (List.mem_singleton.mpr rfl)

/-- C2: when every candidate carries one common set id, no candidate is ever
removed by overlap: the keep list is the full score-sorted pool, a
permutation of all input indices, and its selected scores are
non-increasing. -/
theorem single_set_no_suppression (dets : List Det) (iou_thr : ℚ) (s : ℚ)
    (hs : ∀ d ∈ dets, d.set_index = s) :
    set_nms_wrapper dets iou_thr = (sorted_order dets).map Prod.fst ∧
    (set_nms_wrapper dets iou_thr).Perm (List.range dets.length) ∧
    ((set_nms_wrapper dets iou_thr).map fun k => (dets.getD k default).score).Pairwise
      (fun a b => b ≤ a) := by
  have hmem : ∀ p ∈ sorted_order dets, p.2.set_index = s := by
    intro p hp
    apply hs
    have h2 : p.2 ∈ dets.enum.map Prod.snd :=
      List.mem_map_of_mem _ (mem_sorted_order.mp hp)
    rwa [List.enum_map_snd] at h2
  have hpair : (sorted_order dets).Pairwise fun a b => survives iou_thr a.2 b.2 :=
    List.pairwise_of_forall_mem_list fun a ha b hb =>
      Or.inr ((hmem b hb).trans (hmem a ha).symm)
  have hloop : set_nms_loop iou_thr (sorted_order dets) = sorted_order dets :=
    set_nms_loop_eq_self iou_thr (sorted_order dets).length _ le_rfl hpair
  have hwrap : set_nms_wrapper dets iou_thr = (sorted_order dets).map Prod.fst := by
    unfold set_nms_wrapper
    rw [hloop]
  refine ⟨hwrap, ?_, ?_⟩
  · rw [hwrap]
    exact sorted_order_map_fst_perm dets
  · rw [hwrap, List.map_map]
    have hcongr : ((sorted_order dets).map ((fun k => (dets.getD k default).score) ∘ Prod.fst))
        = (sorted_order dets).map fun p => p.2.score :=
      List.map_congr_left fun p hp => by
        simp only [Function.comp_apply]
        rw [sorted_order_getD hp]
    rw [hcongr, List.pairwise_map]
    exact List.sorted_insertionSort score_order dets.enum

/-- Witness for `single_set_no_suppression`: A and B share set id 1. -/
theorem single_set_no_suppression_witness :
    set_nms_wrapper [detA, detB] (1/2) = (sorted_order [detA, detB]).map Prod.fst ∧
    (set_nms_wrapper [detA, detB] (1/2)).Perm (List.range ([detA, detB] : List Det).length) ∧
    ((set_nms_wrapper [detA, detB] (1/2)).map
      fun k => (([detA, detB] : List Det).getD k default).score).Pairwise
      (fun a b => b ≤ a) :=
  single_set_no_suppression [detA, detB] (1/2) 1 (by
    intro d hd
    simp only [List.mem_cons, List.mem_singleton, List.not_mem_nil, or_false] at hd
    rcases hd with rfl | rfl
    · rfl
    · rfl)

/-- C3: on candidates A, B, C with threshold 1/2, the kernel keeps exactly
`[0, 1]`: A is selected first, B survives round one because it shares A's
set despite their IoU exceeding 1/2, C is suppressed by A (IoU 1, different
set), and B is kept in round two. -/
theorem concrete_scenario_keeps_A_B :
    set_nms_wrapper [detA, detB, detC] (1/2) = [0, 1] := by
  norm_num [detA, detB, detC, set_nms_wrapper, sorted_order, List.insertionSort,
    List.orderedInsert, set_nms_loop, set_nms_go, set_suppress_round, iou, area,
    score_order, List.enum, List.enumFrom, List.filter]

/-- Re-running the kernel on an already sorted, pairwise non-suppressing list
keeps everything, in order. -/
theorem wrapper_eq_range_of_sorted_pairwise (iou_thr : ℚ) (l : List Det)
    (hsorted : l.Pairwise fun d e => e.score ≤ d.score)
    (hsurv : l.Pairwise fun d e => survives iou_thr d e) :
    set_nms_wrapper l iou_thr = List.range l.length := by
  have h1 : (l.enum.map Prod.snd).Pairwise fun d e => e.score ≤ d.score := by
    rwa [List.enum_map_snd]
  have henum_sorted := List.pairwise_map.mp h1
  have h2 : (l.enum.map Prod.snd).Pairwise fun d e => survives iou_thr d e := by
    rwa [List.enum_map_snd]
  have henum_surv := List.pairwise_map.mp h2
  have hsort_eq : sorted_order l = l.enum := by
    unfold sorted_order
    exact List.Sorted.insertionSort_eq henum_sorted
  unfold set_nms_wrapper
  rw [hsort_eq, set_nms_loop_eq_self iou_thr l.enum.length _ le_rfl henum_surv,
    List.enum_map_fst]

/-- The rows the kernel kept, looked up back in the input list, in selection
order. -/
def kept_candidates (dets : List Det) (iou_thr : ℚ) : List Det :=
  (set_nms_wrapper dets iou_thr).map fun k => dets.getD k default

/-- C4: running the kernel a second time on the kept subset with the same
threshold keeps that entire subset (the result is every index of the kept
list, in order): no further candidate is suppressed. -/
theorem resuppression_idempotent (dets : List Det) (iou_thr : ℚ) :
    set_nms_wrapper (kept_candidates dets iou_thr) iou_thr =
      List.range (kept_candidates dets iou_thr).length := by
  have hsub : List.Sublist (set_nms_loop iou_thr (sorted_order dets))
      (sorted_order dets) := set_nms_loop_sublist' _ _
  have hkc : kept_candidates dets iou_thr =
      (set_nms_loop iou_thr (sorted_order dets)).map Prod.snd := by
    unfold kept_candidates set_nms_wrapper
    rw [List.map_map]
    exact List.map_congr_left fun p hp => by
      simp only [Function.comp_apply]
      rw [sorted_order_getD (hsub.subset hp)]
  have hsorted : (set_nms_loop iou_thr (sorted_order dets)).Pairwise score_order :=
    List.Pairwise.sublist hsub (List.sorted_insertionSort score_order dets.enum)
  have hsurv : (set_nms_loop iou_thr (sorted_order dets)).Pairwise
      fun a b => survives iou_thr a.2 b.2 :=
    set_nms_loop_pairwise iou_thr (sorted_order dets).length _ le_rfl
  rw [hkc]
  exact wrapper_eq_range_of_sorted_pairwise iou_thr _
    (List.pairwise_map.mpr hsorted) (List.pairwise_map.mpr hsurv)

/-- A well-formed box: `x1 ≤ x2` and `y1 ≤ y2`. -/
def WellFormedBox (d : Det) : Prop :=
  d.x1 ≤ d.x2 ∧ d.y1 ≤ d.y2

theorem iou_nonneg_le_one {di dj : Det} (hi : WellFormedBox di)
    (hj : WellFormedBox dj) : 0 ≤ iou di dj ∧ iou di dj ≤ 1 := by
  obtain ⟨hix, hiy⟩ := hi
  obtain ⟨hjx, hjy⟩ := hj
  have hiou : iou di dj =
      (max 0 (min di.x2 dj.x2 - max di.x1 dj.x1 + 1) *
        max 0 (min di.y2 dj.y2 - max di.y1 dj.y1 + 1)) /
      (area di + area dj -
        max 0 (min di.x2 dj.x2 - max di.x1 dj.x1 + 1) *
          max 0 (min di.y2 dj.y2 - max di.y1 dj.y1 + 1)) := rfl
  set w := max (0:ℚ) (min di.x2 dj.x2 - max di.x1 dj.x1 + 1) with hw
  set h := max (0:ℚ) (min di.y2 dj.y2 - max di.y1 dj.y1 + 1) with hh
  have hw0 : 0 ≤ w := le_max_left _ _
  have hh0 : 0 ≤ h := le_max_left _ _
  have hwi : w ≤ di.x2 - di.x1 + 1 := by
    apply max_le
    · linarith
    · have h1 : min di.x2 dj.x2 ≤ di.x2 := min_le_left _ _
      have h2 : di.x1 ≤ max di.x1 dj.x1 := le_max_left _ _
      linarith
  have hwj : w ≤ dj.x2 - dj.x1 + 1 := by
    apply max_le
    · linarith
    · have h1 : min di.x2 dj.x2 ≤ dj.x2 := min_le_right _ _
      have h2 : dj.x1 ≤ max di.x1 dj.x1 := le_max_right _ _
      linarith
  have hhi : h ≤ di.y2 - di.y1 + 1 := by
    apply max_le
    · linarith
    · have h1 : min di.y2 dj.y2 ≤ di.y2 := min_le_left _ _
      have h2 : di.y1 ≤ max di.y1 dj.y1 := le_max_left _ _
      linarith
  have hhj : h ≤ dj.y2 - dj.y1 + 1 := by
    apply max_le
    · linarith
    · have h1 : min di.y2 dj.y2 ≤ dj.y2 := min_le_right _ _
      have h2 : dj.y1 ≤ max di.y1 dj.y1 := le_max_right _ _
      linarith
  have hai : area di = (di.x2 - di.x1 + 1) * (di.y2 - di.y1 + 1) := rfl
  have haj : area dj = (dj.x2 - dj.x1 + 1) * (dj.y2 - dj.y1 + 1) := rfl
  have hinter_i : w * h ≤ area di := by
    rw [hai]
    exact mul_le_mul hwi hhi hh0 (by linarith)
  have hinter_j : w * h ≤ area dj := by
    rw [haj]
    exact mul_le_mul hwj hhj hh0 (by linarith)
  have haj1 : (1:ℚ) ≤ area dj := by
    rw [haj]
    nlinarith
  have hunion_pos : 0 < area di + area dj - w * h := by
    have := hinter_i
    linarith
  rw [hiou]
  constructor
  · exact div_nonneg (mul_nonneg hw0 hh0) (le_of_lt hunion_pos)
  · rw [div_le_one hunion_pos]
    linarith

/-- C5: any rational threshold is accepted; for well-formed boxes a
threshold ≥ 1 suppresses nothing (every candidate is kept, the result being
a permutation of all indices), while a negative threshold makes each round
suppress exactly the remaining candidates whose set id differs from the
current top's. -/
theorem out_of_range_threshold (iou_thr : ℚ) :
    (∀ dets : List Det, (∀ d ∈ dets, WellFormedBox d) → 1 ≤ iou_thr →
      set_nms_wrapper dets iou_thr = (sorted_order dets).map Prod.fst ∧
      (set_nms_wrapper dets iou_thr).Perm (List.range dets.length)) ∧
    (∀ (i : Nat × Det) (rest : List (Nat × Det)), WellFormedBox i.2 →
      (∀ j ∈ rest, WellFormedBox j.2) → iou_thr < 0 →
      set_suppress_round iou_thr i rest =
        rest.filter fun j => decide (j.2.set_index = i.2.set_index)) := by
  constructor
  · intro dets hwf hthr
    have hmem : ∀ p ∈ sorted_order dets, WellFormedBox p.2 := by
      intro p hp
      apply hwf
      have h2 : p.2 ∈ dets.enum.map Prod.snd :=
        List.mem_map_of_mem _ (mem_sorted_order.mp hp)
      rwa [List.enum_map_snd] at h2
    have hpair : (sorted_order dets).Pairwise fun a b => survives iou_thr a.2 b.2 :=
      List.pairwise_of_forall_mem_list fun a ha b hb =>
        Or.inl (le_trans (iou_nonneg_le_one (hmem a ha) (hmem b hb)).2 hthr)
    have hloop : set_nms_loop iou_thr (sorted_order dets) = sorted_order dets :=
      set_nms_loop_eq_self iou_thr (sorted_order dets).length _ le_rfl hpair
    have hwrap : set_nms_wrapper dets iou_thr = (sorted_order dets).map Prod.fst := by
      unfold set_nms_wrapper
      rw [hloop]
    exact ⟨hwrap, hwrap ▸ sorted_order_map_fst_perm dets⟩
  · intro i rest hwf_i hwf_rest hneg
    unfold set_suppress_round
    apply List.filter_congr
    intro j hj
    have h0 : 0 ≤ iou i.2 j.2 := (iou_nonneg_le_one hwf_i (hwf_rest j hj)).1
    have hlt : iou_thr < iou i.2 j.2 := lt_of_lt_of_le hneg h0
    rw [decide_eq_false (not_le.mpr hlt), decide_eq_true hlt]
    simp

/-- C6: the keep list is a duplicate-free list of valid indices into the
input, of length at most the input length. -/
theorem keep_list_shape (dets : List Det) (iou_thr : ℚ) :
    (∀ k ∈ set_nms_wrapper dets iou_thr, k < dets.length) ∧
    (set_nms_wrapper dets iou_thr).Nodup ∧
    (set_nms_wrapper dets iou_thr).length ≤ dets.length := by
  have hsub : List.Sublist (set_nms_wrapper dets iou_thr)
      ((sorted_order dets).map Prod.fst) :=
    (set_nms_loop_sublist' iou_thr (sorted_order dets)).map Prod.fst
  have hperm := sorted_order_map_fst_perm dets
  refine ⟨?_, ?_, set_nms_wrapper_length_le dets iou_thr⟩
  · intro k hk
    exact List.mem_range.mp (hperm.subset (hsub.subset hk))
  · exact List.Nodup.sublist hsub (hperm.nodup_iff.mpr (List.nodup_range _))

/-- C8: each round strictly shrinks the pool (the current top is always
removed), so the greedy loop performs at most `n` rounds; as a function of
its inputs the embedded kernel is deterministic under the fixed tie-break. -/
theorem greedy_loop_bounded (iou_thr : ℚ) (dets : List Det) (i : Nat × Det)
    (rest : List (Nat × Det)) :
    (set_suppress_round iou_thr i rest).length < (i :: rest).length ∧
    (set_nms_wrapper dets iou_thr).length ≤ dets.length :=
  ⟨Nat.lt_succ_of_le (set_suppress_round_length_le iou_thr i rest),
   set_nms_wrapper_length_le dets iou_thr⟩

/-- C9: the kernel maps the empty candidate list to the empty keep list, for
any threshold, without signalling any error. -/
theorem empty_input_empty_keep (iou_thr : ℚ) : set_nms_wrapper [] iou_thr = [] := rfl

/-- Witness for `out_of_range_threshold`: a threshold of 2 keeps the single
well-formed candidate A, and a threshold of -1 reduces a round against A to
pure set-id filtering. -/
theorem out_of_range_threshold_witness :
    ((set_nms_wrapper [detA] 2 = (sorted_order [detA]).map Prod.fst ∧
      (set_nms_wrapper [detA] 2).Perm (List.range ([detA] : List Det).length)) ∧
     set_suppress_round (-1) (0, detA) [(2, detC)] =
       [(2, detC)].filter fun j =>
         decide (j.2.set_index = ((0, detA) : Nat × Det).2.set_index)) :=
  ⟨(out_of_range_threshold 2).1 [detA]
      (fun d hd => by
        simp only [List.mem_singleton] at hd
        subst hd
        exact ⟨by norm_num [detA], by norm_num [detA]⟩)
      (by norm_num),
   (out_of_range_threshold (-1)).2 (0, detA) [(2, detC)]
      ⟨by norm_num [detA], by norm_num [detA]⟩
      (fun j hj => by
        simp only [List.mem_singleton] at hj
        subst hj
        exact ⟨by norm_num [detC], by norm_num [detC]⟩)
      (by norm_num)⟩

/-! ## The surrounding `set_nms` function (lines 6-88)

`set_nms` marshals the tensors, asserts its two preconditions, filters by
score, calls the kernel and applies the post-suppression `max_num` cap.  We
embed the `(n, 4)` `multi_bboxes` layout (the `else` branch of line 37) and
model a failed `assert` as an `Except.error`. -/

/-- An axis-aligned box row of `multi_bboxes` (the `(n, 4)` layout). -/
structure Box where
  x1 : ℚ
  y1 : ℚ
  x2 : ℚ
  y2 : ℚ
deriving DecidableEq, Repr, Inhabited

/-- The `nms_cfg` dictionary of line 10: the `type` discriminator popped at
line 66 plus the `iou_thr` keyword argument forwarded to the kernel. -/
structure NmsCfg where
  type : String
  iou_thr : ℚ
deriving DecidableEq, Repr

/-- The tensor arguments of `set_nms`: box rows, the column count of
`multi_scores`, the rows of `multi_scores` and `multi_roiidxs`, and the
optional `score_factors`. -/
structure SetNmsInput where
  multi_bboxes : List Box
  score_cols : Nat
  multi_scores : List (List ℚ)
  multi_roiidxs : List (List ℚ)
  score_factors : Option (List ℚ)

/-- Python slicing `l[:m]`: a non-negative bound takes a prefix, a negative
bound drops the last `|m|` elements (clamped at zero). -/
def pySliceUpTo {α : Type} (m : Int) (l : List α) : List α :=
  if 0 ≤ m then l.take m.toNat else l.take (l.length - (-m).toNat)

/-- Column 1 of each row: `multi_scores[:, 1:]` under the asserted
single-foreground-class shape (line 38), also used for
`multi_roiidxs[:, 1:]` (line 39). -/
def column_one (rows : List (List ℚ)) : List ℚ :=
  rows.map fun r => r.getD 1 0

/-- Lines 44-45: optional multiplication of the scores by `score_factors`
(applied after the validity mask is computed from the raw scores). -/
def effective_scores (scores : List ℚ) : Option (List ℚ) → List ℚ
  | none => scores
  | some f => (scores.zip f).map fun p => p.1 * p.2

/-- One candidate row before score filtering: box, raw score (line 42's
mask reads this), effective score, roi index. -/
def candidate_rows (a : SetNmsInput) : List (Box × ℚ × ℚ × ℚ) :=
  a.multi_bboxes.zip ((column_one a.multi_scores).zip
    ((effective_scores (column_one a.multi_scores) a.score_factors).zip
      (column_one a.multi_roiidxs)))

/-- Lines 42-48: the rows surviving the `scores > score_thr` mask. -/
def valid_rows (a : SetNmsInput) (score_thr : ℚ) : List (Box × ℚ × ℚ × ℚ) :=
  (candidate_rows a).filter fun r => decide (score_thr < r.2.1)

/-- Line 47: the class label of each surviving row; with the single
foreground class of the asserted shape, every label is `0`. -/
def valid_labels (a : SetNmsInput) (score_thr : ℚ) : List Nat :=
  (valid_rows a score_thr).map fun _ => 0

/-- Lines 71-72: the `(nb_valid, 6)` array handed to the kernel: the four
box columns, the effective score, and the roi index. -/
def valid_dets (a : SetNmsInput) (score_thr : ℚ) : List Det :=
  (valid_rows a score_thr).map fun r =>
    ⟨r.1.x1, r.1.y1, r.1.x2, r.1.y2, r.2.2.1, r.2.2.2⟩

/-- Line 73: the keep list returned by the kernel. -/
def set_nms_keep (a : SetNmsInput) (score_thr : ℚ) (cfg : NmsCfg) : List Nat :=
  set_nms_wrapper (valid_dets a score_thr) cfg.iou_thr

/-- Line 75: `bboxes = bboxes[keep]`. -/
def kept_boxes (a : SetNmsInput) (score_thr : ℚ) (cfg : NmsCfg) : List Box :=
  (set_nms_keep a score_thr cfg).map fun k =>
    ((valid_rows a score_thr).getD k default).1

/-- Line 77: `scores = scores[keep]`. -/
def kept_scores (a : SetNmsInput) (score_thr : ℚ) (cfg : NmsCfg) : List ℚ :=
  (set_nms_keep a score_thr cfg).map fun k =>
    ((valid_rows a score_thr).getD k default).2.2.1

/-- Line 78: `labels = labels[keep]`. -/
def kept_labels (a : SetNmsInput) (score_thr : ℚ) (cfg : NmsCfg) : List Nat :=
  (set_nms_keep a score_thr cfg).map fun k =>
    (valid_labels a score_thr).getD k 0

/-- Descending order on `(index, score)` pairs: line 82's
`scores.sort(descending=True)`, with a stable tie-break. -/
def score_desc (p q : Nat × ℚ) : Prop :=
  q.2 ≤ p.2

instance : DecidableRel score_desc := fun p q =>
  inferInstanceAs (Decidable (q.2 ≤ p.2))

/-- Lines 82-83: the indices of the kept detections sorted by descending
score, sliced by `inds[:max_num]`. -/
def topk_inds (a : SetNmsInput) (score_thr : ℚ) (cfg : NmsCfg) (max_num : Int) :
    List Nat :=
  pySliceUpTo max_num
    ((List.insertionSort score_desc (kept_scores a score_thr cfg).enum).map Prod.fst)

/-- Lines 6-88: `set_nms(multi_bboxes, multi_scores, multi_roiidxs,
score_thr, nms_cfg, max_num, score_factors)`.  A failed `assert` is an
`Except.error`; the happy path returns the detections as box-score pairs
plus the label column. -/
def set_nms (a : SetNmsInput) (score_thr : ℚ) (nms_cfg : NmsCfg) (max_num : Int) :
    Except String (List (Box × ℚ) × List Nat) :=
  if (a.score_cols : Int) - 1 ≠ 1 then
    .error "assert num_classes == 1"
  else if ¬ (valid_labels a score_thr).all (· == 0) then
    .error "assert labels.eq(0)"
  else if (valid_rows a score_thr).length = 0 then
    .ok ([], [])
  else if nms_cfg.type ≠ "set_nms" then
    .error "assert nms_type == set_nms"
  else if ¬ (kept_labels a score_thr nms_cfg).all (· == 0) then
    .error "assert labels.eq(0) post nms"
  else if max_num < ((set_nms_keep a score_thr nms_cfg).length : Int) then
    .ok ((topk_inds a score_thr nms_cfg max_num).map fun k =>
           ((kept_boxes a score_thr nms_cfg).getD k default,
            (kept_scores a score_thr nms_cfg).getD k 0),
         (topk_inds a score_thr nms_cfg max_num).map fun k =>
           (kept_labels a score_thr nms_cfg).getD k 0)
  else
    .ok ((kept_boxes a score_thr nms_cfg).zip (kept_scores a score_thr nms_cfg),
         kept_labels a score_thr nms_cfg)

theorem valid_labels_all_zero (a : SetNmsInput) (score_thr : ℚ) :
    (valid_labels a score_thr).all (· == 0) = true := by
  rw [List.all_eq_true]
  intro x hx
  rcases List.mem_map.mp hx with ⟨r, -, rfl⟩
  rfl

theorem getD_all_zero {l : List Nat} (h : ∀ x ∈ l, x = 0) (k : Nat) :
    l.getD k 0 = 0 := by
  rw [List.getD_eq_getElem?_getD]
  cases hx : l[k]? with
  | none => rfl
  | some x => exact h x (List.getElem?_mem hx)

theorem kept_labels_eq_zero (a : SetNmsInput) (score_thr : ℚ) (cfg : NmsCfg) :
    ∀ x ∈ kept_labels a score_thr cfg, x = 0 := by
  intro x hx
  rcases List.mem_map.mp hx with ⟨k, -, rfl⟩
  apply getD_all_zero
  intro y hy
  rcases List.mem_map.mp hy with ⟨r, -, rfl⟩
  rfl

theorem kept_labels_all_zero (a : SetNmsInput) (score_thr : ℚ) (cfg : NmsCfg) :
    (kept_labels a score_thr cfg).all (· == 0) = true := by
  rw [List.all_eq_true]
  intro x hx
  rw [kept_labels_eq_zero a score_thr cfg x hx]
  rfl

theorem kept_scores_length (a : SetNmsInput) (score_thr : ℚ) (cfg : NmsCfg) :
    (kept_scores a score_thr cfg).length = (set_nms_keep a score_thr cfg).length :=
  List.length_map _ _

theorem kept_boxes_length (a : SetNmsInput) (score_thr : ℚ) (cfg : NmsCfg) :
    (kept_boxes a score_thr cfg).length = (set_nms_keep a score_thr cfg).length :=
  List.length_map _ _

theorem topk_inds_length_neg_one (a : SetNmsInput) (score_thr : ℚ) (cfg : NmsCfg) :
    (topk_inds a score_thr cfg (-1)).length =
      (set_nms_keep a score_thr cfg).length - 1 := by
  unfold topk_inds pySliceUpTo
  rw [if_neg (by norm_num)]
  rw [List.length_take, List.length_map, List.length_insertionSort,
    List.enum_length, kept_scores_length]
  omega

/-- C7: with the default `max_num = -1`, whenever the kernel keeps `k ≥ 1`
detections, the test `keep.size(0) > max_num` is true and `inds[:max_num]`
is the python slice `inds[:-1]`, dropping one kept detection: `set_nms`
returns only `k - 1` detections (none at all when `k = 1`). -/
theorem default_max_num_drops_last (a : SetNmsInput) (score_thr : ℚ) (cfg : NmsCfg)
    (hcols : a.score_cols = 2) (htype : cfg.type = "set_nms")
    (hk : 1 ≤ (set_nms_keep a score_thr cfg).length) :
    ∃ (dets_out : List (Box × ℚ)) (labels_out : List Nat),
      set_nms a score_thr cfg (-1) = .ok (dets_out, labels_out) ∧
      dets_out.length = (set_nms_keep a score_thr cfg).length - 1 ∧
      labels_out.length = (set_nms_keep a score_thr cfg).length - 1 := by
  have hvalid : ¬ (valid_rows a score_thr).length = 0 := by
    intro h0
    have hd : (valid_dets a score_thr).length = 0 := by
      unfold valid_dets
      rw [List.length_map]
      exact h0
    have hle := set_nms_wrapper_length_le (valid_dets a score_thr) cfg.iou_thr
    unfold set_nms_keep at hk
    omega
  refine ⟨(topk_inds a score_thr cfg (-1)).map fun k =>
            ((kept_boxes a score_thr cfg).getD k default,
             (kept_scores a score_thr cfg).getD k 0),
          (topk_inds a score_thr cfg (-1)).map fun k =>
            (kept_labels a score_thr cfg).getD k 0, ?_, ?_, ?_⟩
  · unfold set_nms
    rw [if_neg (by rw [hcols]; norm_num)]
    rw [if_neg (not_not_intro (valid_labels_all_zero a score_thr))]
    rw [if_neg hvalid]
    rw [if_neg (not_not_intro htype)]
    rw [if_neg (not_not_intro (kept_labels_all_zero a score_thr cfg))]
    rw [if_pos (by omega)]
  · rw [List.length_map, topk_inds_length_neg_one]
  · rw [List.length_map, topk_inds_length_neg_one]

/-- Witness for `default_max_num_drops_last`: one candidate above threshold,
`k = 1` kept by the kernel, and the returned detection lists are empty. -/
theorem default_max_num_drops_last_witness :
    ∃ (dets_out : List (Box × ℚ)) (labels_out : List Nat),
      set_nms ⟨[⟨0, 0, 1, 1⟩], 2, [[0, 2]], [[0, 7]], none⟩ 1 ⟨"set_nms", 1/2⟩ (-1) =
        .ok (dets_out, labels_out) ∧
      dets_out.length =
        (set_nms_keep ⟨[⟨0, 0, 1, 1⟩], 2, [[0, 2]], [[0, 7]], none⟩ 1
          ⟨"set_nms", 1/2⟩).length - 1 ∧
      labels_out.length =
        (set_nms_keep ⟨[⟨0, 0, 1, 1⟩], 2, [[0, 2]], [[0, 7]], none⟩ 1
          ⟨"set_nms", 1/2⟩).length - 1 :=
  default_max_num_drops_last ⟨[⟨0, 0, 1, 1⟩], 2, [[0, 2]], [[0, 7]], none⟩ 1
    ⟨"set_nms", 1/2⟩ rfl rfl (by
      norm_num [set_nms_keep, set_nms_wrapper, valid_dets, valid_rows,
        candidate_rows, column_one, effective_scores, sorted_order,
        List.insertionSort, List.orderedInsert, set_nms_loop, set_nms_go,
        List.enum, List.enumFrom, List.filter])

/-- C10 (amended): `set_nms` fails with an assertion error iff `multi_scores`
has a column count other than 2, or the post-threshold candidate set is
non-empty and the nms type is not the exact string `"set_nms"`.  When the
score filter leaves no candidate, the early return of lines 51-54 skips the
type assertion; for conforming inputs no assertion fires. -/
theorem set_nms_assert_iff (a : SetNmsInput) (score_thr : ℚ) (cfg : NmsCfg)
    (max_num : Int) :
    (∃ msg, set_nms a score_thr cfg max_num = .error msg) ↔
      (a.score_cols ≠ 2 ∨
        ((valid_rows a score_thr).length ≠ 0 ∧ cfg.type ≠ "set_nms")) := by
  unfold set_nms
  by_cases h1 : a.score_cols = 2
  · rw [if_neg (by omega)]
    rw [if_neg (not_not_intro (valid_labels_all_zero a score_thr))]
    by_cases h2 : (valid_rows a score_thr).length = 0
    · rw [if_pos h2]
      simp [h1, h2]
    · rw [if_neg h2]
      by_cases h3 : cfg.type = "set_nms"
      · rw [if_neg (not_not_intro h3)]
        rw [if_neg (not_not_intro (kept_labels_all_zero a score_thr cfg))]
        by_cases h4 : max_num < ((set_nms_keep a score_thr cfg).length : Int)
        · rw [if_pos h4]
          simp [h1, h3]
        · rw [if_neg h4]
          simp [h1, h3]
      · rw [if_pos h3]
        simp [h2, h3]
  · rw [if_pos (by omega)]
    simp [h1]

/-- Counterexample to C10 as stated: a conforming two-column `multi_scores`
whose only score fails the threshold, combined with a wrong nms type, trips
no assertion: `set_nms` returns the empty result instead of failing. -/
theorem set_nms_wrong_type_no_assert :
    set_nms ⟨[⟨0, 0, 1, 1⟩], 2, [[0, 0]], [[0, 0]], none⟩ 1 ⟨"nms", 1/2⟩ (-1) =
      .ok ([], []) ∧ ("nms" : String) ≠ "set_nms" := by
  constructor
  · norm_num [set_nms, valid_labels, valid_rows, candidate_rows, column_one,
      effective_scores, List.filter]
  · decide

/-- Witness for `keep_list_shape` on the concrete A, B, C scenario. -/
theorem keep_list_shape_witness :
    (∀ k ∈ set_nms_wrapper [detA, detB, detC] (1/2),
      k < ([detA, detB, detC] : List Det).length) ∧
    (set_nms_wrapper [detA, detB, detC] (1/2)).Nodup ∧
    (set_nms_wrapper [detA, detB, detC] (1/2)).length ≤
      ([detA, detB, detC] : List Det).length :=
  keep_list_shape [detA, detB, detC] (1/2)

/-- Witness for `set_nms_assert_iff`: a three-column score tensor makes the
shape assertion fire. -/
theorem set_nms_assert_iff_witness :
    (∃ msg, set_nms ⟨[], 3, [], [], none⟩ 0 ⟨"set_nms", 1/2⟩ (-1) = .error msg) ↔
      ((3 : Nat) ≠ 2 ∨
        ((valid_rows ⟨[], 3, [], [], none⟩ 0).length ≠ 0 ∧
          ("set_nms" : String) ≠ "set_nms")) :=
  set_nms_assert_iff ⟨[], 3, [], [], none⟩ 0 ⟨"set_nms", 1/2⟩ (-1)
